import Mathlib

/-!
Verification of the deep type-transformation utilities of `ts-abstract`
(`src/types/collections.d.ts`) against their natural-language specification.

The source is compile-time TypeScript type logic; following the spec's
runtime recast, a type is reified as a `Shape` value: a tagged union of
`Leaf` (terminal; `opq` marks callable/function-like leaves, which in
TypeScript satisfy `T extends Function` and also `T extends object`),
`ArrayOf` (with `ro` distinguishing `ReadonlyArray` from `Array`), and
`RecordOf` (named fields, each with `optional` and `readonly` flags).

Every operation below is translated clause by clause from the conditional
types in the source:

- `DeepPartial` / `DeepRequired` (lines 33-58): mapped types with `?` / `-?`
  and a per-field dispatch `Array` / `ReadonlyArray` / `object` / other.
  They carry no `T extends Function` guard, so a function-like leaf in a
  field matches `T[P] extends object` and is decomposed: the recursive
  mapped type over `keyof F` (which is `never` for a bare call signature)
  yields the empty object type, here `RecordOf .nil`.  A homomorphic mapped
  type applied to a primitive returns the primitive, so a non-function leaf
  passes through unchanged.
- `DeepReadonly` / `DeepMutable` (lines 60-83): top-level dispatch with a
  `T extends Function ? T` guard, so every leaf (function-like or not)
  passes through unchanged; `ReadonlyArray` does not extend `Array`, and a
  homomorphic `readonly`/`-readonly` mapped type over an array toggles the
  array's readonly-ness, so both array variants normalise.
- `DeepIntersection` (lines 118-137): the first mapped type transforms the
  primary's fields (recursing against the *entire* secondary); the second
  maps the secondary's keys to `P extends keyof T ? never : D[P]`.  The
  intersection of the two object types therefore keeps the primary-only
  fields, appends the secondary-only fields verbatim, and collapses every
  shared-name field to `X & never = never` (modelled as the `never` leaf).
  TypeScript intersections of a non-record with a record (a primitive or an
  array against the mapped secondary) have no counterpart in the
  three-variant Shape contract; those unreduced intersections are kept as
  their primary component here, and no theorem below depends on that corner.
- `Paths` (lines 85-101): `Prev`-indexed depth budget (depth `never`, the
  value of `Prev[0]`, produces the empty union and is inlined below as the
  depth-0 cutoff); a record field `K` always contributes `K` and, when its
  shape extends `object` and depth remains, `Join<K, Paths<...>>`.  Applied
  to an array, the homomorphic mapped type indexed by `keyof U[]` produces
  the numeric-index member `number` (rendered as the template-pattern
  segment `${number}`) and, for object elements, `Join<number, Paths<U>>`;
  method-typed members of the union are filtered by `Join` and are not
  represented.  Applied to a primitive it returns `''`; applied to a
  function type (whose `keyof` is `never`) or an empty record it returns
  the empty union.
- `PathValue` (lines 103-111): splits the path at the first dot via template
  literal inference and walks key by key; applying that split recursively
  equals splitting on every dot at once, which `splitDots` below does.
  `keyof` of a non-record (built-in members of primitives, arrays and
  functions) is modelled as empty; no claim touches those members.
-/

mutual
inductive Shape where
  | Leaf (typeId : String) (opq : Bool)
  | ArrayOf (ro : Bool) (elem : Shape)
  | RecordOf (fields : Fields)
deriving DecidableEq
inductive Fields where
  | nil
  | cons (name : String) (opt : Bool) (ro : Bool) (shape : Shape) (rest : Fields)
deriving DecidableEq
end

/-- The fields as a plain list `(name, optional, readonly, shape)`, used to
state membership properties. -/
def Fields.toList : Fields → List (String × Bool × Bool × Shape)
  | .nil => []
  | .cons n o r s rest => (n, o, r, s) :: rest.toList

/-- First field with the given name (as a character list), with its flags:
the record analogue of `K extends keyof T` plus `T[K]`. -/
def lookupF : Fields → List Char → Option (Bool × Bool × Shape)
  | .nil, _ => none
  | .cons m o r s rest, k => if m.data = k then some (o, r, s) else lookupF rest k

/-- `T extends object` on shapes: records, arrays, and function-like leaves
are objects in TypeScript; other leaves (primitives) are not. -/
def isObjShape : Shape → Bool
  | .Leaf _ o => o
  | .ArrayOf _ _ => true
  | .RecordOf _ => true

/-- The TypeScript type `never`, which the source's `DeepIntersection`
produces on name conflicts. -/
def neverLeaf : Shape := .Leaf "never" false

mutual
/-- `DeepPartial` (source lines 33-41).  The top-level homomorphic mapped
type and the per-field conditional chain coincide case by case (both
recurse into array elements and into record fields), so one function covers
both.  A function-like leaf matches `extends object` and decomposes to the
empty object type; a primitive leaf passes through. -/
def deepPartial : Shape → Shape
  | .Leaf t o => if o then .RecordOf .nil else .Leaf t o
  | .ArrayOf ro e => .ArrayOf ro (deepPartial e)
  | .RecordOf fs => .RecordOf (deepPartialFields fs)
/-- The mapped type of `DeepPartial`: `?` sets every field optional; the
field's shape goes through the conditional chain. -/
def deepPartialFields : Fields → Fields
  | .nil => .nil
  | .cons n _ r s rest => .cons n true r (deepPartial s) (deepPartialFields rest)
end

mutual
/-- `DeepRequired` (source lines 43-58): mirror of `DeepPartial` with `-?`. -/
def deepRequired : Shape → Shape
  | .Leaf t o => if o then .RecordOf .nil else .Leaf t o
  | .ArrayOf ro e => .ArrayOf ro (deepRequired e)
  | .RecordOf fs => .RecordOf (deepRequiredFields fs)
/-- The mapped type of `DeepRequired`: `-?` clears every optional flag. -/
def deepRequiredFields : Fields → Fields
  | .nil => .nil
  | .cons n _ r s rest => .cons n false r (deepRequired s) (deepRequiredFields rest)
end

mutual
/-- `DeepReadonly` (source lines 60-70): the `T extends Function ? T` guard
keeps every leaf unchanged; arrays become readonly arrays of the transformed
element; record fields gain `readonly` and keep their optional flag. -/
def deepReadonly : Shape → Shape
  | .Leaf t o => .Leaf t o
  | .ArrayOf _ e => .ArrayOf true (deepReadonly e)
  | .RecordOf fs => .RecordOf (deepReadonlyFields fs)
/-- The mapped type of `DeepReadonly`: `readonly` on every field. -/
def deepReadonlyFields : Fields → Fields
  | .nil => .nil
  | .cons n o _ s rest => .cons n o true (deepReadonly s) (deepReadonlyFields rest)
end

mutual
/-- `DeepMutable` (source lines 72-83): the `T extends Function ? T` guard
keeps every leaf unchanged; both array variants become mutable arrays of the
transformed element; `-readonly` and `-?` clear both flags on every field. -/
def deepMutable : Shape → Shape
  | .Leaf t o => .Leaf t o
  | .ArrayOf _ e => .ArrayOf false (deepMutable e)
  | .RecordOf fs => .RecordOf (deepMutableFields fs)
/-- The mapped type of `DeepMutable`: `-readonly` and `-?` on every field. -/
def deepMutableFields : Fields → Fields
  | .nil => .nil
  | .cons n _ _ s rest => .cons n false false (deepMutable s) (deepMutableFields rest)
end

/-- Fields of the first mapped type of `DeepIntersection` whose name occurs
in the secondary collapse to `never` (`X & never = never`); an intersected
property is optional only when optional on both sides and readonly when
readonly on either. -/
def poisonFields : Fields → Fields → Fields
  | .nil, _ => .nil
  | .cons n o r s rest, dfs =>
    match lookupF dfs n.data with
    | some (od, rd, _) => .cons n (o && od) (r || rd) neverLeaf (poisonFields rest dfs)
    | none => .cons n o r s (poisonFields rest dfs)

/-- The secondary's fields absent by name from the primary, kept verbatim
(`P extends keyof T ? never : D[P]` with the `never`-typed collisions folded
into `poisonFields`). -/
def freshFields : Fields → Fields → Fields
  | .nil, _ => .nil
  | .cons n o r s rest, m1 =>
    if (lookupF m1 n.data).isSome then freshFields rest m1
    else .cons n o r s (freshFields rest m1)

/-- Concatenation of field lists. -/
def appendFields : Fields → Fields → Fields
  | .nil, gs => gs
  | .cons n o r s rest, gs => .cons n o r s (appendFields rest gs)

/-- The `&` of the transformed primary record with the second mapped type of
`DeepIntersection`.  When the secondary is not a record the second mapped
type is the secondary itself (homomorphic over a primitive) and the
intersection has no three-variant form; the primary component is kept. -/
def mergeInter (m1 : Fields) (D : Shape) : Shape :=
  match D with
  | .RecordOf dfs => .RecordOf (appendFields (poisonFields m1 dfs) (freshFields dfs m1))
  | _ => .RecordOf m1

mutual
/-- `DeepIntersection` (source lines 118-137).  The per-field conditional
chain recurses against the entire secondary; a function-like leaf matches
`extends object` and its mapped type over `keyof F = never` is the empty
object, which the `&` then fills with the secondary's fields. -/
def deepIntersection : Shape → Shape → Shape
  | .Leaf t o, D => if o then mergeInter .nil D else .Leaf t o
  | .ArrayOf ro e, D => .ArrayOf ro (deepIntersection e D)
  | .RecordOf tfs, D => mergeInter (interFields tfs D) D
/-- The first mapped type of `DeepIntersection`: flags preserved, each
field's shape through the conditional chain against the whole secondary. -/
def interFields : Fields → Shape → Fields
  | .nil, _ => .nil
  | .cons n o r s rest, D => .cons n o r (deepIntersection s D) (interFields rest D)
end

/-- The numeric-index member `number` of `keyof U[]`, rendered as the
template-literal segment it becomes under `Join`. -/
def idxSegment : String := "${number}"

/-- `Join<K, P>` mapped over a set of tail paths. -/
def joinAll (K : String) (ps : List String) : List String :=
  ps.map (fun p => K ++ "." ++ p)

mutual
/-- `Paths<T, D>` (source lines 85-101) as a list of path strings.  The
depth `never` produced by `Prev[0]` is the empty union, inlined as the
depth-0 cutoff of the recursive call.  A primitive leaf yields `''`; a
function-like leaf (whose `keyof` is `never`) yields the empty union; an
array yields its numeric-index segment and, for an object element, the
joined element paths. -/
def paths : Shape → Nat → List String
  | .Leaf _ o, _ => if o then [] else [""]
  | .ArrayOf _ e, D =>
    idxSegment ::
      (if isObjShape e then
        (match D with
         | 0 => []
         | Nat.succ d => joinAll idxSegment (paths e d))
      else [])
  | .RecordOf fs, D => pathsFields fs D
/-- The mapped type of `Paths` over a record's keys: each field contributes
its name and, when its shape extends `object` and depth remains, the joined
deeper paths. -/
def pathsFields : Fields → Nat → List String
  | .nil, _ => []
  | .cons K _ _ c rest, D =>
    (K ::
      (if isObjShape c then
        (match D with
         | 0 => []
         | Nat.succ d => joinAll K (paths c d))
      else [])) ++ pathsFields rest D
end

/-- Split a character list on every dot: the recursive first-dot template
inference of `PathValue`, applied to exhaustion. -/
def splitDots : List Char → List (List Char)
  | [] => [[]]
  | c :: cs =>
    if c = '.' then [] :: splitDots cs
    else
      match splitDots cs with
      | [] => [[c]]
      | s :: ss => (c :: s) :: ss

/-- `PathValue` (source lines 103-111) on a pre-split path: walk one key at
a time; a missing key or a non-record before exhaustion is `none`
(`never`).  Built-in members of non-records are modelled as absent. -/
def resolveSegs : Shape → List (List Char) → Option Shape
  | _, [] => none
  | T, k :: rest =>
    match T with
    | .RecordOf fs =>
      match lookupF fs k with
      | some (_, _, c) =>
        match rest with
        | [] => some c
        | _ :: _ => resolveSegs c rest
      | none => none
    | _ => none

/-- `PathValue` on a dot-joined path string. -/
def resolve (s : Shape) (p : String) : Option Shape :=
  resolveSegs s (splitDots p.data)

/-- Number of joins (dots) in a path. -/
def countDots (p : String) : Nat := p.data.count '.'

mutual
/-- Shapes on which `resolve` can follow every enumerated path: no arrays
anywhere, and every record has dot-free, duplicate-free field names. -/
def resolvableShape : Shape → Bool
  | .Leaf _ _ => true
  | .ArrayOf _ _ => false
  | .RecordOf fs => resolvableFields fs
def resolvableFields : Fields → Bool
  | .nil => true
  | .cons n _ _ s rest =>
    !(n.data.contains '.') && (lookupF rest n.data).isNone
      && resolvableShape s && resolvableFields rest
end

mutual
/-- Every field name anywhere in the shape is dot-free. -/
def dotFreeNames : Shape → Bool
  | .Leaf _ _ => true
  | .ArrayOf _ e => dotFreeNames e
  | .RecordOf fs => dotFreeFields fs
def dotFreeFields : Fields → Bool
  | .nil => true
  | .cons n _ _ s rest => !(n.data.contains '.') && dotFreeNames s && dotFreeFields rest
end

mutual
/-- No function-like (`opq`) leaf anywhere in the shape. -/
def noOpqShape : Shape → Bool
  | .Leaf _ o => !o
  | .ArrayOf _ e => noOpqShape e
  | .RecordOf fs => noOpqFields fs
def noOpqFields : Fields → Bool
  | .nil => true
  | .cons _ _ _ s rest => noOpqShape s && noOpqFields rest
end

/-- Whether the root is a record. -/
def isRecordShape : Shape → Bool
  | .RecordOf _ => true
  | _ => false

/-- The fields of a record shape (empty for the other variants). -/
def fieldsOf : Shape → Fields
  | .RecordOf fs => fs
  | _ => .nil

/-! ## Induction principle and helper lemmas -/

/-- Mutual structural induction over `Shape` and `Fields`. -/
theorem shape_fields_ind {P : Shape → Prop} {Q : Fields → Prop}
    (hleaf : ∀ t o, P (.Leaf t o))
    (harr : ∀ ro e, P e → P (.ArrayOf ro e))
    (hrec : ∀ fs, Q fs → P (.RecordOf fs))
    (hnil : Q .nil)
    (hcons : ∀ n o r s rest, P s → Q rest → Q (.cons n o r s rest)) :
    (∀ s, P s) ∧ (∀ fs, Q fs) := by
  refine ⟨fun s => ?_, fun fs => ?_⟩
  · induction s using Shape.rec (motive_2 := Q) <;> solve
      | apply hleaf | apply harr <;> assumption | apply hrec <;> assumption
      | apply hnil | apply hcons <;> assumption
  · induction fs using Fields.rec (motive_1 := P) <;> solve
      | apply hleaf | apply harr <;> assumption | apply hrec <;> assumption
      | apply hnil | apply hcons <;> assumption

/-- Induction over `Fields` alone, for properties that do not recurse into
the shapes. -/
theorem fields_ind {Q : Fields → Prop}
    (hnil : Q .nil)
    (hcons : ∀ n o r s rest, Q rest → Q (.cons n o r s rest)) :
    ∀ fs, Q fs :=
  (shape_fields_ind (P := fun _ => True)
    (fun _ _ => trivial) (fun _ _ _ => trivial) (fun _ _ => trivial)
    hnil (fun n o r s rest _ ih => hcons n o r s rest ih)).2

/-! ## C6: idempotence of the four flag transforms -/

/-- Claim C6: the four deep flag transforms are idempotent: applying
`deepPartial`, `deepRequired`, `deepReadonly` or `deepMutable` twice equals
applying it once, for every Shape. -/
theorem C6_idempotence : ∀ s : Shape,
    deepPartial (deepPartial s) = deepPartial s ∧
    deepRequired (deepRequired s) = deepRequired s ∧
    deepReadonly (deepReadonly s) = deepReadonly s ∧
    deepMutable (deepMutable s) = deepMutable s := by
  have h := shape_fields_ind
    (P := fun s =>
      deepPartial (deepPartial s) = deepPartial s ∧
      deepRequired (deepRequired s) = deepRequired s ∧
      deepReadonly (deepReadonly s) = deepReadonly s ∧
      deepMutable (deepMutable s) = deepMutable s)
    (Q := fun fs =>
      deepPartialFields (deepPartialFields fs) = deepPartialFields fs ∧
      deepRequiredFields (deepRequiredFields fs) = deepRequiredFields fs ∧
      deepReadonlyFields (deepReadonlyFields fs) = deepReadonlyFields fs ∧
      deepMutableFields (deepMutableFields fs) = deepMutableFields fs)
    ?_ ?_ ?_ ?_ ?_
  · exact h.1
  · intro t o
    cases o <;>
      simp [deepPartial, deepRequired, deepReadonly, deepMutable,
        deepPartialFields, deepRequiredFields]
  · intro ro e ih
    simp [deepPartial, deepRequired, deepReadonly, deepMutable,
      ih.1, ih.2.1, ih.2.2.1, ih.2.2.2]
  · intro fs ih
    simp [deepPartial, deepRequired, deepReadonly, deepMutable,
      ih.1, ih.2.1, ih.2.2.1, ih.2.2.2]
  · simp [deepPartialFields, deepRequiredFields, deepReadonlyFields, deepMutableFields]
  · intro n o r s rest ihs ihr
    simp [deepPartialFields, deepRequiredFields, deepReadonlyFields, deepMutableFields,
      ihs.1, ihs.2.1, ihs.2.2.1, ihs.2.2.2, ihr.1, ihr.2.1, ihr.2.2.1, ihr.2.2.2]

/-! ## C7: deepMutable resets the flags deepReadonly sets -/

/-- `deepMutable` forces both flags on every field and both functions leave
leaves unchanged and normalise arrays, so the reset law holds for every
shape. -/
theorem deepMutable_deepReadonly : ∀ s : Shape,
    deepMutable (deepReadonly s) = deepMutable s := by
  have h := shape_fields_ind
    (P := fun s => deepMutable (deepReadonly s) = deepMutable s)
    (Q := fun fs => deepMutableFields (deepReadonlyFields fs) = deepMutableFields fs)
    ?_ ?_ ?_ ?_ ?_
  · exact h.1
  · intro t o; rfl
  · intro ro e ih; simp [deepReadonly, deepMutable, ih]
  · intro fs ih; simp [deepReadonly, deepMutable, ih]
  · rfl
  · intro n o r s rest ihs ihr
    simp [deepReadonlyFields, deepMutableFields, ihs, ihr]

/-- Claim C7: for every RecordOf shape with no opaque leaves,
`deepMutable (deepReadonly s) = deepMutable s` — deepMutable fully resets
the readonly and optional flags regardless of prior state. -/
theorem C7_reset_law : ∀ s : Shape,
    isRecordShape s = true → noOpqShape s = true →
    deepMutable (deepReadonly s) = deepMutable s :=
  fun s _ _ => deepMutable_deepReadonly s

/-- Witness for C7 at a concrete record. -/
theorem C7_reset_law_witness :
    isRecordShape (.RecordOf (.cons "id" false true (.Leaf "number" false) .nil)) = true ∧
    noOpqShape (.RecordOf (.cons "id" false true (.Leaf "number" false) .nil)) = true ∧
    deepMutable (deepReadonly (.RecordOf (.cons "id" false true (.Leaf "number" false) .nil)))
      = deepMutable (.RecordOf (.cons "id" false true (.Leaf "number" false) .nil)) :=
  ⟨by decide, by decide,
    C7_reset_law (.RecordOf (.cons "id" false true (.Leaf "number" false) .nil))
      (by decide) (by decide)⟩

/-! ## C4: the transforms carry no depth budget -/

/-- A chain of `n` nested single-field records ending in a primitive leaf,
all flags cleared: the `n`-th finite unfolding of the self-referential
record `S = RecordOf { a: S }`. -/
def nestShape : Nat → Shape
  | 0 => .Leaf "int" false
  | Nat.succ k => .RecordOf (.cons "a" false false (nestShape k) .nil)

/-- `nestShape` with every `optional` flag set. -/
def nestOpt : Nat → Shape
  | 0 => .Leaf "int" false
  | Nat.succ k => .RecordOf (.cons "a" true false (nestOpt k) .nil)

/-- `nestShape` with every `readonly` flag set. -/
def nestRO : Nat → Shape
  | 0 => .Leaf "int" false
  | Nat.succ k => .RecordOf (.cons "a" false true (nestRO k) .nil)

/-- A one-field secondary record used to exercise `deepIntersection` at
every depth of a nest. -/
def zRecord : Shape := .RecordOf (.cons "z" false false (.Leaf "string" false) .nil)

/-- `nestShape` with the `zRecord` field appended at every record level:
what `deepIntersection` against `zRecord` produces on a nest. -/
def nestZ : Nat → Shape
  | 0 => .Leaf "int" false
  | Nat.succ k =>
    .RecordOf (.cons "a" false false (nestZ k)
      (.cons "z" false false (.Leaf "string" false) .nil))

mutual
/-- Modelled from the spec: the depth-bounded `deepPartial(shape, depth)` of
the runtime design (§4.2), absent from the source: depth exhaustion returns
the remaining subtree verbatim; a record's fields become optional and their
shapes are recursed at depth-1; leaves pass through unchanged.  Used only to
compare the claimed depth-truncation behaviour with the implementation. -/
def specDeepPartial : Shape → Nat → Shape
  | s, 0 => s
  | .Leaf t o, _ => .Leaf t o
  | .ArrayOf ro e, Nat.succ d => .ArrayOf ro (specDeepPartial e d)
  | .RecordOf fs, Nat.succ d => .RecordOf (specDeepPartialFields fs d)
/-- Modelled from the spec: the field rewrite of `specDeepPartial`. -/
def specDeepPartialFields : Fields → Nat → Fields
  | .nil, _ => .nil
  | .cons n _ r s rest, d => .cons n true r (specDeepPartial s d) (specDeepPartialFields rest d)
end

/-- Counterexample to C4: on a 7-deep nest the implementation (which has no
depth parameter) differs from the spec's depth-5-budget `deepPartial`,
because it rewrites the `optional` flags at depths 6 and 7 as well instead
of returning those subtrees verbatim. -/
theorem C4_cex : deepPartial (nestShape 7) ≠ specDeepPartial (nestShape 7) 5 := by decide

/-- One step of `deepIntersection` against `zRecord` on a one-field record
named `a`: the field is kept (no name collision) and `z` is appended. -/
theorem interZ_step (s : Shape) :
    deepIntersection (.RecordOf (.cons "a" false false s .nil)) zRecord
      = .RecordOf (.cons "a" false false (deepIntersection s zRecord)
          (.cons "z" false false (.Leaf "string" false) .nil)) := rfl

/-- Claim C4 as amended: the five deep transforms carry no depth budget at
all — they are total by structural recursion and rewrite at every depth, as
the `n`-deep nest family shows for every `n` (only `Paths` is
depth-bounded, via `Prev`). -/
theorem C4_no_depth_budget : ∀ n : Nat,
    deepPartial (nestShape n) = nestOpt n ∧
    deepRequired (nestShape n) = nestShape n ∧
    deepReadonly (nestShape n) = nestRO n ∧
    deepMutable (nestShape n) = nestShape n ∧
    deepIntersection (nestShape n) zRecord = nestZ n := by
  intro n
  induction n with
  | zero => exact ⟨rfl, rfl, rfl, rfl, rfl⟩
  | succ k ih =>
    refine ⟨?_, ?_, ?_, ?_, ?_⟩
    · simp [nestShape, nestOpt, deepPartial, deepPartialFields, ih.1]
    · simp [nestShape, deepRequired, deepRequiredFields, ih.2.1]
    · simp [nestShape, nestRO, deepReadonly, deepReadonlyFields, ih.2.2.1]
    · simp [nestShape, deepMutable, deepMutableFields, ih.2.2.2.1]
    · rw [nestShape, interZ_step, ih.2.2.2.2]; rfl

/-! ## C1: deepIntersection destroys conflicting primary fields -/

/-- The spec's intersection-asymmetry primary: `RecordOf{a: Leaf(int)}`. -/
def C1primary : Shape := .RecordOf (.cons "a" false false (.Leaf "int" false) .nil)

/-- The spec's intersection-asymmetry secondary:
`RecordOf{a: Leaf(string), b: Leaf(bool)}`. -/
def C1secondary : Shape :=
  .RecordOf (.cons "a" false false (.Leaf "string" false)
    (.cons "b" false false (.Leaf "bool" false) .nil))

/-- Claim C1, evaluated at the spec's own example: the conflicting field `a`
does not keep the primary's `Leaf(int)` — the second mapped type gives it
type `never`, and `Leaf(int) & never = never` — while `b` is appended
unchanged.  The `@remarks` of the source ("the Target type will not get its
properties overwritten") promises the opposite, so the implementation
contradicts its own documentation. -/
theorem C1_eval :
    deepIntersection C1primary C1secondary
      = .RecordOf (.cons "a" false false neverLeaf
          (.cons "b" false false (.Leaf "bool" false) .nil)) ∧
    deepIntersection C1primary C1secondary
      ≠ .RecordOf (.cons "a" false false (.Leaf "int" false)
          (.cons "b" false false (.Leaf "bool" false) .nil)) :=
  ⟨rfl, by decide⟩

/-! ## C3: which transforms leave opaque leaves alone -/

/-- Counterexample to C3: `deepPartial` does not leave an opaque
(function-like) leaf field unchanged — lacking the `Function` guard, it
decomposes the leaf (whose `keyof` is `never`) into the empty record. -/
theorem C3_cex :
    deepPartial (.RecordOf (.cons "f" false false (.Leaf "fn" true) .nil))
      ≠ .RecordOf (.cons "f" true false (.Leaf "fn" true) .nil) := by decide

/-- Claim C3 as amended: `deepReadonly` and `deepMutable` (which carry the
`T extends Function ? T` guard) never decompose an opaque leaf field,
while `deepPartial` and `deepRequired` (which lack the guard) decompose it
into the empty record through the `extends object` branch. -/
theorem C3_opq_leaf_transforms :
    ∀ (fs : Fields) (n : String) (o r : Bool) (t : String),
    (n, o, r, Shape.Leaf t true) ∈ fs.toList →
    (n, o, true, Shape.Leaf t true) ∈ (deepReadonlyFields fs).toList ∧
    (n, false, false, Shape.Leaf t true) ∈ (deepMutableFields fs).toList ∧
    (n, true, r, Shape.RecordOf .nil) ∈ (deepPartialFields fs).toList ∧
    (n, false, r, Shape.RecordOf .nil) ∈ (deepRequiredFields fs).toList := by
  have h := fields_ind (Q := fun fs => ∀ (n : String) (o r : Bool) (t : String),
    (n, o, r, Shape.Leaf t true) ∈ fs.toList →
    (n, o, true, Shape.Leaf t true) ∈ (deepReadonlyFields fs).toList ∧
    (n, false, false, Shape.Leaf t true) ∈ (deepMutableFields fs).toList ∧
    (n, true, r, Shape.RecordOf .nil) ∈ (deepPartialFields fs).toList ∧
    (n, false, r, Shape.RecordOf .nil) ∈ (deepRequiredFields fs).toList)
    ?_ ?_
  · exact h
  · intro n o r t hmem; simp [Fields.toList] at hmem
  · intro m om rm sm rest ih n o r t hmem
    simp only [Fields.toList, List.mem_cons, Prod.mk.injEq] at hmem
    rcases hmem with ⟨hn, ho, hr, hs⟩ | hmem
    · subst hn; subst ho; subst hr; subst hs
      refine ⟨?_, ?_, ?_, ?_⟩ <;>
        simp [deepReadonlyFields, deepMutableFields, deepPartialFields,
          deepRequiredFields, Fields.toList, deepReadonly, deepMutable,
          deepPartial, deepRequired]
    · have := ih n o r t hmem
      refine ⟨?_, ?_, ?_, ?_⟩ <;>
        simp [deepReadonlyFields, deepMutableFields, deepPartialFields,
          deepRequiredFields, Fields.toList, this.1, this.2.1, this.2.2.1, this.2.2.2]

/-- Witness for C3's amended theorem at a concrete one-field record. -/
theorem C3_opq_leaf_transforms_witness :
    (("f", false, false, Shape.Leaf "fn" true)
        ∈ (Fields.cons "f" false false (.Leaf "fn" true) .nil).toList) ∧
    (("f", false, true, Shape.Leaf "fn" true)
        ∈ (deepReadonlyFields (.cons "f" false false (.Leaf "fn" true) .nil)).toList ∧
      ("f", false, false, Shape.Leaf "fn" true)
        ∈ (deepMutableFields (.cons "f" false false (.Leaf "fn" true) .nil)).toList ∧
      ("f", true, false, Shape.RecordOf .nil)
        ∈ (deepPartialFields (.cons "f" false false (.Leaf "fn" true) .nil)).toList ∧
      ("f", false, false, Shape.RecordOf .nil)
        ∈ (deepRequiredFields (.cons "f" false false (.Leaf "fn" true) .nil)).toList) :=
  ⟨by decide,
    C3_opq_leaf_transforms (.cons "f" false false (.Leaf "fn" true) .nil)
      "f" false false "fn" (by decide)⟩

/-! ## C9: paths on trivial inputs -/

/-- Counterexample to C9: on the empty record, `Paths` is the mapped type
indexed by `keyof {} = never`, the empty union — not the empty string. -/
theorem C9_cex : paths (.RecordOf .nil) 5 ≠ [""] := by decide

/-- Claim C9 as amended: invoked directly on a primitive (non-opaque) leaf,
`paths` returns the empty string; on an opaque leaf or on the empty record
it returns the empty set. -/
theorem C9_trivial_paths : ∀ (t : String) (D : Nat),
    paths (.Leaf t false) D = [""] ∧
    paths (.Leaf t true) D = [] ∧
    paths (.RecordOf .nil) D = [] := by
  intro t D
  exact ⟨rfl, rfl, rfl⟩

/-! ## Splitting and lookup lemmas -/

/-- `splitDots` never returns the empty list of segments. -/
theorem splitDots_ne_nil : ∀ k : List Char, splitDots k ≠ []
  | [] => by simp [splitDots]
  | c :: cs => by
    simp only [splitDots]
    split
    · simp
    · cases h : splitDots cs <;> simp

/-- A dot-free path is a single segment. -/
theorem splitDots_no_dot : ∀ k : List Char, '.' ∉ k → splitDots k = [k]
  | [], _ => rfl
  | c :: cs, h => by
    have hc : ¬ c = '.' := fun hc => h (hc ▸ List.mem_cons_self c cs)
    have ih := splitDots_no_dot cs (fun hm => h (List.mem_cons_of_mem c hm))
    simp [splitDots, hc, ih]

/-- Splitting after a dot-free head segment. -/
theorem splitDots_append : ∀ (k q : List Char), '.' ∉ k →
    splitDots (k ++ '.' :: q) = k :: splitDots q
  | [], q, _ => by simp [splitDots]
  | c :: cs, q, h => by
    have hc : ¬ c = '.' := fun hc => h (hc ▸ List.mem_cons_self c cs)
    have ih := splitDots_append cs q (fun hm => h (List.mem_cons_of_mem c hm))
    simp [splitDots, hc, ih]

/-- On resolvable fields (duplicate-free names), lookup returns exactly the
member field. -/
theorem lookupF_eq_of_mem : ∀ (fs : Fields) (n : String) (o r : Bool) (c : Shape),
    resolvableFields fs = true → (n, o, r, c) ∈ fs.toList →
    lookupF fs n.data = some (o, r, c) := by
  have h := fields_ind (Q := fun fs => ∀ (n : String) (o r : Bool) (c : Shape),
    resolvableFields fs = true → (n, o, r, c) ∈ fs.toList →
    lookupF fs n.data = some (o, r, c)) ?_ ?_
  · exact h
  · intro n o r c _ hmem; simp [Fields.toList] at hmem
  · intro m om rm sm rest ih n o r c hres hmem
    simp only [resolvableFields, Bool.and_eq_true] at hres
    obtain ⟨⟨⟨_, hnodup⟩, _⟩, hrest⟩ := hres
    simp only [Fields.toList, List.mem_cons, Prod.mk.injEq] at hmem
    rcases hmem with ⟨hn, ho, hr, hs⟩ | hmem
    · subst hn; subst ho; subst hr; subst hs
      simp [lookupF]
    · have hlk := ih n o r c hrest hmem
      by_cases hd : m.data = n.data
      · rw [hd] at hnodup
        rw [hlk] at hnodup
        simp at hnodup
      · simp [lookupF, hd, hlk]

/-- Member fields of resolvable fields have dot-free names and resolvable
shapes. -/
theorem resolvable_of_mem : ∀ (fs : Fields) (n : String) (o r : Bool) (c : Shape),
    resolvableFields fs = true → (n, o, r, c) ∈ fs.toList →
    '.' ∉ n.data ∧ resolvableShape c = true := by
  have h := fields_ind (Q := fun fs => ∀ (n : String) (o r : Bool) (c : Shape),
    resolvableFields fs = true → (n, o, r, c) ∈ fs.toList →
    '.' ∉ n.data ∧ resolvableShape c = true) ?_ ?_
  · exact h
  · intro n o r c _ hmem; simp [Fields.toList] at hmem
  · intro m om rm sm rest ih n o r c hres hmem
    simp only [resolvableFields, Bool.and_eq_true] at hres
    obtain ⟨⟨⟨hdot, _⟩, hsm⟩, hrest⟩ := hres
    simp only [Fields.toList, List.mem_cons, Prod.mk.injEq] at hmem
    rcases hmem with ⟨hn, _, _, hs⟩ | hmem
    · subst hn; subst hs
      exact ⟨by simpa using hdot, hsm⟩
    · exact ih n o r c hrest hmem

/-! ## Membership characterization of path enumeration -/

/-- Every enumerated path of a record comes from some field: it is the
field's name, or (one depth unit down) the name joined to a path of an
object-shaped field. -/
theorem mem_pathsFields_elim : ∀ (fs : Fields) (D : Nat) (p : String),
    p ∈ pathsFields fs D →
    ∃ n o r c, (n, o, r, c) ∈ fs.toList ∧
      (p = n ∨ (isObjShape c = true ∧
        ∃ d q, D = d + 1 ∧ q ∈ paths c d ∧ p = n ++ "." ++ q)) := by
  have h := fields_ind (Q := fun fs => ∀ (D : Nat) (p : String),
    p ∈ pathsFields fs D →
    ∃ n o r c, (n, o, r, c) ∈ fs.toList ∧
      (p = n ∨ (isObjShape c = true ∧
        ∃ d q, D = d + 1 ∧ q ∈ paths c d ∧ p = n ++ "." ++ q))) ?_ ?_
  · exact h
  · intro D p hp; simp [pathsFields] at hp
  · intro K oK rK c rest ih D p hp
    simp only [pathsFields, List.mem_append, List.mem_cons] at hp
    rcases hp with (rfl | hp) | hp
    · exact ⟨p, oK, rK, c, by simp [Fields.toList], Or.inl rfl⟩
    · cases hobj : isObjShape c with
      | false => rw [hobj] at hp; simp at hp
      | true =>
        rw [hobj] at hp
        simp only [if_true] at hp
        cases D with
        | zero => simp at hp
        | succ d =>
          simp only [joinAll, List.mem_map] at hp
          obtain ⟨q, hq, rfl⟩ := hp
          exact ⟨K, oK, rK, c, by simp [Fields.toList],
            Or.inr ⟨hobj, d, q, rfl, hq, rfl⟩⟩
    · obtain ⟨n, o, r, c', hmem, hcase⟩ := ih D p hp
      exact ⟨n, o, r, c', by simp [Fields.toList, hmem], hcase⟩

/-- Every field contributes its own name to the enumeration, at any depth. -/
theorem name_mem_pathsFields : ∀ (fs : Fields) (D : Nat) (n : String) (o r : Bool) (c : Shape),
    (n, o, r, c) ∈ fs.toList → n ∈ pathsFields fs D := by
  have h := fields_ind (Q := fun fs => ∀ (D : Nat) (n : String) (o r : Bool) (c : Shape),
    (n, o, r, c) ∈ fs.toList → n ∈ pathsFields fs D) ?_ ?_
  · exact h
  · intro D n o r c hmem; simp [Fields.toList] at hmem
  · intro K oK rK cK rest ih D n o r c hmem
    simp only [Fields.toList, List.mem_cons, Prod.mk.injEq] at hmem
    rcases hmem with ⟨hn, _, _, _⟩ | hmem
    · subst hn; simp [pathsFields]
    · simp only [pathsFields, List.mem_append]
      exact Or.inr (ih D n o r c hmem)

/-- An object-shaped field exposes each of its element paths joined under
its name, with one extra depth unit. -/
theorem join_mem_pathsFields : ∀ (fs : Fields) (d : Nat) (n : String) (o r : Bool)
    (c : Shape) (q : String),
    (n, o, r, c) ∈ fs.toList → isObjShape c = true → q ∈ paths c d →
    (n ++ "." ++ q) ∈ pathsFields fs (d + 1) := by
  have h := fields_ind (Q := fun fs => ∀ (d : Nat) (n : String) (o r : Bool)
    (c : Shape) (q : String),
    (n, o, r, c) ∈ fs.toList → isObjShape c = true → q ∈ paths c d →
    (n ++ "." ++ q) ∈ pathsFields fs (d + 1)) ?_ ?_
  · exact h
  · intro d n o r c q hmem; simp [Fields.toList] at hmem
  · intro K oK rK cK rest ih d n o r c q hmem hobj hq
    simp only [Fields.toList, List.mem_cons, Prod.mk.injEq] at hmem
    rcases hmem with ⟨hn, _, _, hs⟩ | hmem
    · subst hn; subst hs
      simp only [pathsFields, List.mem_append, List.mem_cons, hobj, if_true]
      exact Or.inl (Or.inr (by simp [joinAll]; exact ⟨q, hq, rfl⟩))
    · simp only [pathsFields, List.mem_append]
      exact Or.inr (ih d n o r c q hmem hobj hq)

/-! ## The resolve/paths inverse law on array-free shapes -/

/-- Resolving a bare field name of a resolvable record succeeds. -/
theorem resolveSegs_name (fs : Fields) (n : String) (o r : Bool) (c : Shape)
    (hres : resolvableFields fs = true) (hmem : (n, o, r, c) ∈ fs.toList) :
    (resolveSegs (.RecordOf fs) (splitDots n.data)).isSome = true := by
  have hdot := (resolvable_of_mem fs n o r c hres hmem).1
  have hlk := lookupF_eq_of_mem fs n o r c hres hmem
  rw [splitDots_no_dot n.data hdot]
  simp [resolveSegs, hlk]

/-- The inverse law, on pre-split paths: every enumerated path of an
array-free record with dot-free duplicate-free names resolves. -/
theorem resolveSegs_paths : ∀ (D : Nat) (fs : Fields), resolvableFields fs = true →
    ∀ p : String, p ∈ pathsFields fs D →
    (resolveSegs (.RecordOf fs) (splitDots p.data)).isSome = true := by
  intro D
  induction D with
  | zero =>
    intro fs hres p hp
    obtain ⟨n, o, r, c, hmem, hcase⟩ := mem_pathsFields_elim fs 0 p hp
    rcases hcase with rfl | ⟨_, d, q, hD, _⟩
    · exact resolveSegs_name fs p o r c hres hmem
    · exact absurd hD (by omega)
  | succ k ih =>
    intro fs hres p hp
    obtain ⟨n, o, r, c, hmem, hcase⟩ := mem_pathsFields_elim fs (k + 1) p hp
    rcases hcase with rfl | ⟨hobj, d, q, hD, hq, rfl⟩
    · exact resolveSegs_name fs p o r c hres hmem
    · have hd : d = k := by omega
      rw [hd] at hq
      have hdot := (resolvable_of_mem fs n o r c hres hmem).1
      have hcres := (resolvable_of_mem fs n o r c hres hmem).2
      have hlk := lookupF_eq_of_mem fs n o r c hres hmem
      have hdata : (n ++ "." ++ q).data = n.data ++ '.' :: q.data := by
        simp [String.data_append]
      rw [hdata, splitDots_append n.data q.data hdot]
      rcases hsp : splitDots q.data with _ | ⟨seg, segs⟩
      · exact absurd hsp (splitDots_ne_nil q.data)
      · have hgoal : resolveSegs (.RecordOf fs) (n.data :: seg :: segs)
            = resolveSegs c (seg :: segs) := by
          simp [resolveSegs, hlk]
        rw [hgoal, ← hsp]
        cases c with
        | Leaf t o' =>
          cases o' with
          | false => simp [isObjShape] at hobj
          | true => simp [paths] at hq
        | ArrayOf ro e => simp [resolvableShape] at hcres
        | RecordOf fs' =>
          have hq' : q ∈ pathsFields fs' k := by simpa [paths] using hq
          have hres' : resolvableFields fs' = true := by
            simpa [resolvableShape] using hcres
          exact ih fs' hres' q hq'

/-- Counterexample to C2 as stated: on a record with an array field, the
enumeration contains the numeric-index pattern path, which `resolve`
cannot follow (`${number}` extends neither `number` nor any key of
`keyof U[]`), although the depth budget never truncated it. -/
theorem C2_cex :
    ("tags.${number}" ∈ paths
      (.RecordOf (.cons "tags" false false (.ArrayOf false (.Leaf "string" false)) .nil)) 5) ∧
    resolve (.RecordOf (.cons "tags" false false (.ArrayOf false (.Leaf "string" false)) .nil))
      "tags.${number}" = none := by decide

/-- Claim C2 as amended: for every record-rooted shape that contains no
arrays and whose records carry dot-free, duplicate-free field names, every
path in `paths(s, D)` — truncated or not — resolves successfully. -/
theorem C2_resolve_paths : ∀ (fs : Fields) (D : Nat) (p : String),
    resolvableFields fs = true → p ∈ paths (.RecordOf fs) D →
    (resolve (.RecordOf fs) p).isSome = true := by
  intro fs D p h hp
  have hp' : p ∈ pathsFields fs D := by simpa [paths] using hp
  exact resolveSegs_paths D fs h p hp'

/-- The spec's end-to-end example record. -/
def endToEndFields : Fields :=
  .cons "id" false false (.Leaf "number" false)
    (.cons "profile" false false
      (.RecordOf (.cons "name" false false (.Leaf "string" false)
        (.cons "address" false false
          (.RecordOf (.cons "city" false false (.Leaf "string" false)
            (.cons "zip" false false (.Leaf "number" false) .nil))) .nil))) .nil)

/-- Witness for C2's amended theorem on the end-to-end record. -/
theorem C2_resolve_paths_witness :
    resolvableFields endToEndFields = true ∧
    ("profile.address.city" ∈ paths (.RecordOf endToEndFields) 5) ∧
    (resolve (.RecordOf endToEndFields) "profile.address.city").isSome = true :=
  ⟨by decide, by decide,
    C2_resolve_paths endToEndFields 5 "profile.address.city" (by decide) (by decide)⟩

/-! ## C5: depth truncation bounds the number of joins -/

/-- Paths never hold more joins than the depth budget. -/
theorem paths_countDots : ∀ D : Nat,
    (∀ s, dotFreeNames s = true → ∀ p ∈ paths s D, countDots p ≤ D) ∧
    (∀ fs, dotFreeFields fs = true → ∀ p ∈ pathsFields fs D, countDots p ≤ D) := by
  intro D
  induction D with
  | zero =>
    have hF : ∀ fs, dotFreeFields fs = true → ∀ p ∈ pathsFields fs 0, countDots p ≤ 0 := by
      have h := fields_ind (Q := fun fs => dotFreeFields fs = true →
        ∀ p ∈ pathsFields fs 0, countDots p ≤ 0) ?_ ?_
      · exact h
      · intro _ p hp; simp [pathsFields] at hp
      · intro K oK rK c rest ih hdf p hp
        simp only [dotFreeFields, Bool.and_eq_true] at hdf
        obtain ⟨⟨hdot, _⟩, hrest⟩ := hdf
        simp only [pathsFields, List.mem_append, List.mem_cons] at hp
        rcases hp with (rfl | hp) | hp
        · simp only [countDots, Nat.le_zero, List.count_eq_zero]
          simpa using hdot
        · cases hobj : isObjShape c <;> rw [hobj] at hp <;> simp at hp
        · exact ih hrest p hp
    refine ⟨?_, hF⟩
    intro s hdf p hp
    cases s with
    | Leaf t o =>
      cases o with
      | false => simp [paths] at hp; simp [hp, countDots]
      | true => simp [paths] at hp
    | ArrayOf ro e =>
      cases hobj : isObjShape e <;> rw [paths, hobj] at hp <;> simp at hp <;>
        simp [hp, countDots, idxSegment]
    | RecordOf fs => exact hF fs (by simpa [dotFreeNames] using hdf) p (by simpa [paths] using hp)
  | succ k ihk =>
    have hF : ∀ fs, dotFreeFields fs = true →
        ∀ p ∈ pathsFields fs (k + 1), countDots p ≤ k + 1 := by
      have h := fields_ind (Q := fun fs => dotFreeFields fs = true →
        ∀ p ∈ pathsFields fs (k + 1), countDots p ≤ k + 1) ?_ ?_
      · exact h
      · intro _ p hp; simp [pathsFields] at hp
      · intro K oK rK c rest ih hdf p hp
        simp only [dotFreeFields, Bool.and_eq_true] at hdf
        obtain ⟨⟨hdot, hdfc⟩, hrest⟩ := hdf
        simp only [pathsFields, List.mem_append, List.mem_cons] at hp
        rcases hp with (rfl | hp) | hp
        · have : countDots p = 0 := by
            simp only [countDots, List.count_eq_zero]; simpa using hdot
          omega
        · cases hobj : isObjShape c with
          | false => rw [hobj] at hp; simp at hp
          | true =>
            rw [hobj] at hp
            simp only [if_true, joinAll, List.mem_map] at hp
            obtain ⟨q, hq, rfl⟩ := hp
            have hK : countDots K = 0 := by
              simp only [countDots, List.count_eq_zero]; simpa using hdot
            have hq' := ihk.1 c hdfc q hq
            have : countDots (K ++ "." ++ q) = countDots K + 1 + countDots q := by
              simp [countDots, String.data_append, List.count_append]
              omega
            omega
        · exact ih hrest p hp
    refine ⟨?_, hF⟩
    intro s hdf p hp
    cases s with
    | Leaf t o =>
      cases o with
      | false => simp [paths] at hp; simp [hp, countDots]
      | true => simp [paths] at hp
    | ArrayOf ro e =>
      cases hobj : isObjShape e with
      | false =>
        rw [paths, hobj] at hp; simp at hp
        simp [hp, countDots, idxSegment]
      | true =>
        rw [paths, hobj] at hp
        simp only [if_true, List.mem_cons, joinAll, List.mem_map] at hp
        rcases hp with rfl | ⟨q, hq, rfl⟩
        · simp [countDots, idxSegment]
        · have hq' := ihk.1 e (by simpa [dotFreeNames] using hdf) q hq
          have hI : countDots idxSegment = 0 := by decide
          have : countDots (idxSegment ++ "." ++ q)
              = countDots idxSegment + 1 + countDots q := by
            simp [countDots, String.data_append, List.count_append]
            omega
          omega
    | RecordOf fs => exact hF fs (by simpa [dotFreeNames] using hdf) p (by simpa [paths] using hp)

/-- Claim C5: with depth budget 2, path enumeration terminates on every
shape (the function is total) and every enumerated path has at most 2 joins
— in particular on any finite unfolding of the self-referential record
`S = RecordOf { a: S }`, whose deepest path is `a.a.a`. -/
theorem C5_depth_truncation : ∀ (s : Shape) (p : String),
    dotFreeNames s = true → p ∈ paths s 2 → countDots p ≤ 2 :=
  fun s p h hp => (paths_countDots 2).1 s h p hp

/-- Witness for C5 on the 5-fold unfolding of the self-referential record:
the enumeration is the finite set `{a, a.a, a.a.a}` and its deepest member
has exactly 2 joins. -/
theorem C5_depth_truncation_witness :
    dotFreeNames (nestShape 5) = true ∧
    paths (nestShape 5) 2 = ["a", "a.a", "a.a.a"] ∧
    ("a.a.a" ∈ paths (nestShape 5) 2) ∧ countDots "a.a.a" ≤ 2 :=
  ⟨by decide, by decide, by decide,
    C5_depth_truncation (nestShape 5) "a.a.a" (by decide) (by decide)⟩

/-! ## C8: arrays contribute an index-pattern segment -/

/-- Counterexample to C8 as stated: for a record with an array-of-records
field, the element's field path is not exposed directly under the field
name, while the array's numeric-index pattern segment is enumerated. -/
theorem C8_cex :
    ("tags.name" ∉ paths
      (.RecordOf (.cons "tags" false false
        (.ArrayOf false (.RecordOf (.cons "name" false false (.Leaf "string" false) .nil)))
        .nil)) 5) ∧
    ("tags.${number}" ∈ paths
      (.RecordOf (.cons "tags" false false
        (.ArrayOf false (.RecordOf (.cons "name" false false (.Leaf "string" false) .nil)))
        .nil)) 5) := by decide

/-- Claim C8 as amended: an `ArrayOf` field named `n` contributes the
numeric-index pattern path `n.${number}`, and every path of an object
element shape appears under `n.${number}.`, each join consuming one depth
unit. -/
theorem C8_array_paths : ∀ (fs : Fields) (n : String) (o r ro : Bool) (E : Shape)
    (d : Nat) (q : String),
    (n, o, r, Shape.ArrayOf ro E) ∈ fs.toList → isObjShape E = true → q ∈ paths E d →
    (n ++ "." ++ idxSegment) ∈ paths (.RecordOf fs) (d + 2) ∧
    (n ++ "." ++ (idxSegment ++ "." ++ q)) ∈ paths (.RecordOf fs) (d + 2) := by
  intro fs n o r ro E d q hmem hobj hq
  have harr : isObjShape (.ArrayOf ro E) = true := rfl
  have h1 : idxSegment ∈ paths (.ArrayOf ro E) (d + 1) := by
    rw [paths]; exact List.mem_cons_self _ _
  have h2 : (idxSegment ++ "." ++ q) ∈ paths (.ArrayOf ro E) (d + 1) := by
    rw [paths, hobj]
    simp only [if_true, List.mem_cons, joinAll, List.mem_map]
    exact Or.inr ⟨q, hq, rfl⟩
  constructor
  · have := join_mem_pathsFields fs (d + 1) n o r (.ArrayOf ro E) idxSegment hmem harr h1
    simpa [paths] using this
  · have := join_mem_pathsFields fs (d + 1) n o r (.ArrayOf ro E)
      (idxSegment ++ "." ++ q) hmem harr h2
    simpa [paths] using this

/-- Witness for C8's amended theorem: the array-of-records example at
depth 2, with element path `name`. -/
theorem C8_array_paths_witness :
    (("tags", false, false,
        Shape.ArrayOf false (.RecordOf (.cons "name" false false (.Leaf "string" false) .nil)))
      ∈ (Fields.cons "tags" false false
          (.ArrayOf false (.RecordOf (.cons "name" false false (.Leaf "string" false) .nil)))
          .nil).toList) ∧
    isObjShape (.RecordOf (.cons "name" false false (.Leaf "string" false) .nil)) = true ∧
    ("name" ∈ paths (.RecordOf (.cons "name" false false (.Leaf "string" false) .nil)) 0) ∧
    (("tags" ++ "." ++ idxSegment) ∈ paths
      (.RecordOf (.cons "tags" false false
        (.ArrayOf false (.RecordOf (.cons "name" false false (.Leaf "string" false) .nil)))
        .nil)) 2) ∧
    (("tags" ++ "." ++ (idxSegment ++ "." ++ "name")) ∈ paths
      (.RecordOf (.cons "tags" false false
        (.ArrayOf false (.RecordOf (.cons "name" false false (.Leaf "string" false) .nil)))
        .nil)) 2) :=
  ⟨by decide, by decide, by decide,
    (C8_array_paths
      (.cons "tags" false false (.ArrayOf false (.RecordOf (.cons "name" false false (.Leaf "string" false) .nil))) .nil)
      "tags" false false false (.RecordOf (.cons "name" false false (.Leaf "string" false) .nil)) 0 "name" (by decide) (by decide) (by decide)).1,
    (C8_array_paths
      (.cons "tags" false false (.ArrayOf false (.RecordOf (.cons "name" false false (.Leaf "string" false) .nil))) .nil)
      "tags" false false false (.RecordOf (.cons "name" false false (.Leaf "string" false) .nil)) 0 "name" (by decide) (by decide) (by decide)).2⟩

/-! ## C10: deepIntersection through array fields -/

/-- The first mapped type transforms every member field in place. -/
theorem mem_interFields : ∀ (tfs : Fields) (D : Shape) (n : String) (o r : Bool) (s : Shape),
    (n, o, r, s) ∈ tfs.toList →
    (n, o, r, deepIntersection s D) ∈ (interFields tfs D).toList := by
  intro tfs D
  have h := fields_ind (Q := fun tfs => ∀ (n : String) (o r : Bool) (s : Shape),
    (n, o, r, s) ∈ tfs.toList →
    (n, o, r, deepIntersection s D) ∈ (interFields tfs D).toList) ?_ ?_
  · exact h tfs
  · intro n o r s hmem; simp [Fields.toList] at hmem
  · intro K oK rK sK rest ih n o r s hmem
    simp only [Fields.toList, List.mem_cons, Prod.mk.injEq] at hmem
    rcases hmem with ⟨hn, ho, hr, hs⟩ | hmem
    · subst hn; subst ho; subst hr; subst hs
      simp [interFields, Fields.toList]
    · simp only [interFields, Fields.toList, List.mem_cons]
      exact Or.inr (ih n o r s hmem)

/-- A field whose name the secondary lacks survives the `&` unpoisoned. -/
theorem mem_poisonFields : ∀ (m1 dfs : Fields) (n : String) (o r : Bool) (s : Shape),
    (n, o, r, s) ∈ m1.toList → lookupF dfs n.data = none →
    (n, o, r, s) ∈ (poisonFields m1 dfs).toList := by
  intro m1 dfs
  have h := fields_ind (Q := fun m1 => ∀ (n : String) (o r : Bool) (s : Shape),
    (n, o, r, s) ∈ m1.toList → lookupF dfs n.data = none →
    (n, o, r, s) ∈ (poisonFields m1 dfs).toList) ?_ ?_
  · exact h m1
  · intro n o r s hmem; simp [Fields.toList] at hmem
  · intro K oK rK sK rest ih n o r s hmem hnone
    simp only [Fields.toList, List.mem_cons, Prod.mk.injEq] at hmem
    rcases hmem with ⟨hn, ho, hr, hs⟩ | hmem
    · subst hn; subst ho; subst hr; subst hs
      simp [poisonFields, hnone, Fields.toList]
    · have hrec := ih n o r s hmem hnone
      rcases hl : lookupF dfs K.data with _ | ⟨⟨od, rd, sd⟩⟩ <;>
        simp [poisonFields, hl, Fields.toList, hrec]

/-- `appendFields` concatenates the underlying lists. -/
theorem toList_appendFields : ∀ a b : Fields,
    (appendFields a b).toList = a.toList ++ b.toList := by
  intro a b
  have h := fields_ind (Q := fun a => (appendFields a b).toList = a.toList ++ b.toList) ?_ ?_
  · exact h a
  · rfl
  · intro n o r s rest ih
    simp [appendFields, Fields.toList, ih]

/-- Counterexample to C10 as stated: when the array field's name also
occurs in the secondary, the result field is the `never` collapse, not an
array of the recursively intersected element. -/
theorem C10_cex :
    deepIntersection
        (.RecordOf (.cons "a" false false (.ArrayOf false (.Leaf "int" false)) .nil))
        (.RecordOf (.cons "a" false false (.Leaf "string" false) .nil))
      ≠ .RecordOf (.cons "a" false false
          (.ArrayOf false (deepIntersection (.Leaf "int" false)
            (.RecordOf (.cons "a" false false (.Leaf "string" false) .nil)))) .nil) := by
  decide

/-- Claim C10 as amended: for every primary field holding an array (mutable
or readonly) whose name the secondary record lacks, the result carries, at
that name and with the primary's flags, an array of the same kind whose
element shape is the element intersected against the entire secondary. -/
theorem C10_intersection_arrays : ∀ (tfs dfs : Fields) (n : String) (o r ro : Bool)
    (E : Shape),
    (n, o, r, Shape.ArrayOf ro E) ∈ tfs.toList → lookupF dfs n.data = none →
    (n, o, r, Shape.ArrayOf ro (deepIntersection E (.RecordOf dfs)))
      ∈ (fieldsOf (deepIntersection (.RecordOf tfs) (.RecordOf dfs))).toList := by
  intro tfs dfs n o r ro E hmem hnone
  have h1 := mem_interFields tfs (.RecordOf dfs) n o r (.ArrayOf ro E) hmem
  have h1' : (n, o, r, Shape.ArrayOf ro (deepIntersection E (.RecordOf dfs)))
      ∈ (interFields tfs (.RecordOf dfs)).toList := by
    simpa [deepIntersection] using h1
  have h2 := mem_poisonFields (interFields tfs (.RecordOf dfs)) dfs n o r _ h1' hnone
  show _ ∈ (fieldsOf (mergeInter (interFields tfs (.RecordOf dfs)) (.RecordOf dfs))).toList
  simp only [mergeInter, fieldsOf, toList_appendFields, List.mem_append]
  exact Or.inl h2

/-- Witness for C10's amended theorem at a concrete collision-free pair. -/
theorem C10_intersection_arrays_witness :
    (("a", false, false, Shape.ArrayOf false (.Leaf "int" false))
      ∈ (Fields.cons "a" false false (.ArrayOf false (.Leaf "int" false)) .nil).toList) ∧
    lookupF (.cons "b" false false (.Leaf "string" false) .nil) ("a" : String).data = none ∧
    (("a", false, false,
        Shape.ArrayOf false (deepIntersection (.Leaf "int" false)
          (.RecordOf (.cons "b" false false (.Leaf "string" false) .nil))))
      ∈ (fieldsOf (deepIntersection
          (.RecordOf (.cons "a" false false (.ArrayOf false (.Leaf "int" false)) .nil))
          (.RecordOf (.cons "b" false false (.Leaf "string" false) .nil)))).toList) :=
  ⟨by decide, by decide,
    C10_intersection_arrays
      (.cons "a" false false (.ArrayOf false (.Leaf "int" false)) .nil)
      (.cons "b" false false (.Leaf "string" false) .nil)
      "a" false false false (.Leaf "int" false) (by decide) (by decide)⟩
